import Mathlib

/-!
Shallow embedding of the SAX pipeline in `DS_coding_challenge.py`.

Real values are modelled as rationals (every IEEE float is a rational).
The two transcendental library routines the program calls are abstracted
as explicit function parameters:
  * `sqrtQ : ℚ → ℚ` models the square root used inside `pandas.Series.std`;
  * `ppf : ℚ → ℚ` models `scipy.stats.norm.ppf` (inverse standard-normal
    CDF); theorems that need it assume only its strict monotonicity on
    (0, 1), which is the property the spec relies on.
The numpy global random generator is modelled by threading an abstract
state `s : ℕ` together with parameters `seedFn : ℕ → ℕ` (the effect of
`np.random.seed`) and `draw : ℕ → ℚ × ℕ` (drawing one innovation).
-/

namespace DS

/-- Arithmetic mean of a list, `pandas.Series.mean` / `groupby(...).mean()`:
sum divided by length. -/
def listMean (x : List ℚ) : ℚ := x.sum / (x.length : ℚ)

/-- Sample variance with the `n - 1` denominator (`pandas` default
`ddof = 1`), the square of what `x.std()` returns. -/
def sampleVar (x : List ℚ) : ℚ :=
  ((x.map (fun v => (v - listMean x) ^ 2)).sum) / ((x.length : ℚ) - 1)

/-- Sample standard deviation `x.std()`: square root of `sampleVar`,
with the float square root abstracted as `sqrtQ`. -/
def sampleStd (sqrtQ : ℚ → ℚ) (x : List ℚ) : ℚ := sqrtQ (sampleVar x)

/-- Embedding of `normalize` (source lines 37-42): `(x - x.mean()) / x.std()`,
element-wise over the series. -/
def normalize (sqrtQ : ℚ → ℚ) (x : List ℚ) : List ℚ :=
  x.map (fun v => (v - listMean x) / sampleStd sqrtQ x)

/-- The group keys of `x.groupby(agg_index)` where
`agg_index = [np.floor(i/f) for i in x.index]` (source line 46):
the distinct values of `i / f` over the index range, in order of the
sorted distinct keys (pandas sorts group keys; the key list
`[i / f for i in range n]` is nondecreasing, so `dedup` already lists the
distinct keys in ascending order). -/
def aggKeys (n f : ℕ) : List ℕ := ((List.range n).map (fun i => i / f)).dedup

/-- The member indices of the group with key `k` under
`agg_index = [np.floor(i/f) for i in x.index]`. -/
def aggGroup (n f k : ℕ) : List ℕ := (List.range n).filter (fun i => i / f = k)

/-- Error conditions reachable from the embedded code, plus the
`InvalidParameterError` condition named by the spec (which the source never
raises; it is included so that statements about it can be written). -/
inductive SAXErr where
  | zeroDivisionError
  | valueError
  | invalidParameterError
  deriving DecidableEq

/-- Pure body of `reduce_PAA` for `f ≠ 0`: mean of each group, groups in
sorted-key order, exactly `x.groupby(agg_index).mean()`. -/
def paaCore (x : List ℚ) (f : ℕ) : List ℚ :=
  (aggKeys x.length f).map
    (fun k => listMean ((aggGroup x.length f k).map (fun i => x.getD i 0)))

/-- Embedding of `reduce_PAA` (source lines 44-47).  With `f = 0` the
comprehension `[np.floor(i/f) for i in x.index]` performs `i / 0` on Python
integers and raises `ZeroDivisionError` before any grouping happens;
otherwise it groups by `floor(i/f)` and takes group means. -/
def reduce_PAA (x : List ℚ) (f : ℕ) : Except SAXErr (List ℚ) :=
  if f = 0 then .error .zeroDivisionError else .ok (paaCore x f)

/-- Binary digit list of `n` (most significant first, no leading zeros,
empty for 0), written with explicit fuel so that it reduces; the first
argument is the fuel. -/
def binDigitsAux : ℕ → ℕ → List ℕ
  | 0, _ => []
  | _, 0 => []
  | fuel + 1, n + 1 => binDigitsAux fuel ((n + 1) / 2) ++ [(n + 1) % 2]

/-- Embedding of Python `bin(n)[2:]` as its digit sequence: the binary
numeral of `n` without leading zeros, with `bin(0)[2:] = "0"` rendered
as `[0]`. -/
def binRepr (n : ℕ) : List ℕ := if n = 0 then [0] else binDigitsAux n n

/-- Embedding of `cat_names = [bin(i)[2:] for i in range(0, a)]`
(source line 55). -/
def cat_names (a : ℕ) : List (List ℕ) := (List.range a).map binRepr

/-- Embedding of `breakpoints_0_to_1 = [i/a for i in range(1, a)]`
(source line 52). -/
def breakpoints_0_to_1 (a : ℕ) : List ℚ :=
  (List.range' 1 (a - 1)).map (fun (i : ℕ) => (i : ℚ) / (a : ℚ))

/-- Embedding of `breakpoints = norm.ppf(breakpoints_0_to_1)`
(source line 53), with the inverse normal CDF abstracted as `ppf`. -/
def breakpoints (ppf : ℚ → ℚ) (a : ℕ) : List ℚ :=
  (breakpoints_0_to_1 a).map ppf

/-- Index of the interval `pd.cut` assigns to `v` given the interior
breakpoint list `bps`, for bins `[-inf] ++ bps ++ [inf]` with the default
right-closed convention: `v` lands in bin `i` iff `bins[i] < v ≤ bins[i+1]`,
i.e. the bin index is the number of interior breakpoints strictly
below `v`. -/
def binIndex (bps : List ℚ) (v : ℚ) : ℕ := bps.countP (fun b => decide (b < v))

/-- The category label `pd.cut` assigns to one value. -/
def saxSymbol (ppf : ℚ → ℚ) (a : ℕ) (v : ℚ) : List ℕ :=
  (cat_names a).getD (binIndex (breakpoints ppf a) v) []

/-- Pure body of `transform_to_SAX`: each value mapped independently to its
category label. -/
def saxCore (ppf : ℚ → ℚ) (x : List ℚ) (a : ℕ) : List (List ℕ) :=
  x.map (saxSymbol ppf a)

/-- Embedding of `transform_to_SAX` (source lines 49-59).  `pd.cut` raises
`ValueError` when the number of labels differs from the number of bins
(which happens exactly for `a = 0`: one bin `(-inf, inf]` but zero labels);
otherwise every value is binned. -/
def transform_to_SAX (ppf : ℚ → ℚ) (x : List ℚ) (a : ℕ) :
    Except SAXErr (List (List ℕ)) :=
  if (cat_names a).length = (breakpoints ppf a).length + 1 then
    .ok (saxCore ppf x a)
  else .error .valueError

/-- Draw `k` innovations from the global generator, threading its state. -/
def drawN (draw : ℕ → ℚ × ℕ) : ℕ → ℕ → List ℚ × ℕ
  | 0, s => ([], s)
  | k + 1, s =>
    let p := draw s
    let rest := drawN draw k p.2
    (p.1 :: rest.1, rest.2)

/-- The ARMA(1,1) filter of `ArmaProcess(ar1, ma1).generate_sample` with
`ar1 = [1, -0.0]`, `ma1 = [1, 0.5]`: the AR coefficient is exactly 0, so
`x_t = e_t + 0.5 * e_(t-1)` with `e_(-1) = 0`.  The first argument after
the coefficient is the previous innovation. -/
def maFilter (c : ℚ) : ℚ → List ℚ → List ℚ
  | _, [] => []
  | prev, e :: es => (e + c * prev) :: maFilter c e es

/-- Embedding of `make_timeseries` (source lines 28-35): it first calls
`np.random.seed(12345)`, replacing whatever global generator state `s` was
current, then draws 100 innovations and filters them.  Returns
`((series, n), new generator state)`. -/
def make_timeseries (seedFn : ℕ → ℕ) (draw : ℕ → ℚ × ℕ) (_s : ℕ) :
    (List ℚ × ℕ) × ℕ :=
  let s0 := seedFn 12345
  let es := drawN draw 100 s0
  ((maFilter (1 / 2) 0 es.1, 100), es.2)

/-- Embedding of `produce_SAX_data` (source lines 61-69): make the series,
aggregate, normalize the aggregated series, then SAX-transform; no
parameter validation of any kind happens here. -/
def produce_SAX_data (seedFn : ℕ → ℕ) (draw : ℕ → ℚ × ℕ)
    (sqrtQ : ℚ → ℚ) (ppf : ℚ → ℚ) (f a : ℕ) (s : ℕ) :
    Except SAXErr (List ℚ × List (List ℕ) × ℕ) × ℕ :=
  let mk := make_timeseries seedFn draw s
  match reduce_PAA mk.1.1 f with
  | .error e => (.error e, mk.2)
  | .ok xagg =>
    match transform_to_SAX ppf (normalize sqrtQ xagg) a with
    | .error e => (.error e, mk.2)
    | .ok xSAX => (.ok (mk.1.1, xSAX, mk.1.2), mk.2)

/-- Outcome of one `show_hist` GUI event. -/
inductive GUIOutcome where
  | popupError (msg : String)
  | histogram (cats : List (List ℕ))
  | crash (e : SAXErr)
  deriving DecidableEq

/-- Embedding of the `show_hist` branch of the event loop (source lines
140-165): parse the frame-size field (modelled as `Option ℚ`, `none` for a
failed `float(...)`), validate it, then the alphabet-size field, then call
`produce_SAX_data` and plot.  Note the source shows the message
"Please enter frame size" for a missing alphabet size as well. -/
def show_hist (seedFn : ℕ → ℕ) (draw : ℕ → ℚ × ℕ) (sqrtQ : ℚ → ℚ)
    (ppf : ℚ → ℚ) (ef ea : Option ℚ) (s : ℕ) : GUIOutcome :=
  match ef with
  | none => .popupError "Please enter frame size"
  | some f =>
    if f < 1 ∨ 100 < f ∨ (⌊f⌋ : ℚ) ≠ f then
      .popupError "Frame size has to be an integer between 1 and n."
    else
      match ea with
      | none => .popupError "Please enter frame size"
      | some a =>
        if a < 1 ∨ 100 < a ∨ (⌊a⌋ : ℚ) ≠ a then
          .popupError "Alphabet size has to be an integer between 1 and n."
        else
          match (produce_SAX_data seedFn draw sqrtQ ppf ⌊f⌋.toNat ⌊a⌋.toNat s).1 with
          | .ok r => .histogram r.2.1
          | .error e => .crash e

/-- Whether an `Except` result is a success. -/
def exceptIsOk (e : Except SAXErr (List ℚ × List (List ℕ) × ℕ)) : Bool :=
  match e with
  | .ok _ => true
  | .error _ => false

/-!
IEEE-flavoured value model, used to settle what `normalize` does on a
degenerate (constant) input.  A float is a rational or one of the special
values `+inf`, `-inf`, `NaN`; the arithmetic on the rational part is exact
(signed zeros are not modelled: the argument only needs `0 / 0 = NaN`,
`x - x = 0` and exactness of sums of equal values).
-/

/-- A floating-point value: a (rational) number or an IEEE special value. -/
inductive FVal where
  | num (q : ℚ)
  | pinf
  | ninf
  | nan
  deriving DecidableEq

/-- IEEE addition. -/
def fadd : FVal → FVal → FVal
  | .num a, .num b => .num (a + b)
  | .nan, _ => .nan
  | _, .nan => .nan
  | .pinf, .ninf => .nan
  | .ninf, .pinf => .nan
  | .pinf, _ => .pinf
  | _, .pinf => .pinf
  | .ninf, _ => .ninf
  | _, .ninf => .ninf

/-- IEEE subtraction. -/
def fsub : FVal → FVal → FVal
  | .num a, .num b => .num (a - b)
  | .nan, _ => .nan
  | _, .nan => .nan
  | .pinf, .pinf => .nan
  | .ninf, .ninf => .nan
  | .pinf, _ => .pinf
  | _, .pinf => .ninf
  | .ninf, _ => .ninf
  | _, .ninf => .pinf

/-- IEEE multiplication (`inf * 0 = NaN`). -/
def fmul : FVal → FVal → FVal
  | .num a, .num b => .num (a * b)
  | .nan, _ => .nan
  | _, .nan => .nan
  | .pinf, .pinf => .pinf
  | .pinf, .ninf => .ninf
  | .ninf, .pinf => .ninf
  | .ninf, .ninf => .pinf
  | .pinf, .num b => if b = 0 then .nan else if 0 < b then .pinf else .ninf
  | .num a, .pinf => if a = 0 then .nan else if 0 < a then .pinf else .ninf
  | .ninf, .num b => if b = 0 then .nan else if 0 < b then .ninf else .pinf
  | .num a, .ninf => if a = 0 then .nan else if 0 < a then .ninf else .pinf

/-- IEEE division (`0 / 0 = NaN`, `x / 0 = ±inf` for `x ≠ 0`,
`x / inf = 0`, `inf / inf = NaN`); the sign of zero is not modelled, a
division by zero with positive numerator yields `+inf`. -/
def fdiv : FVal → FVal → FVal
  | .num a, .num b =>
    if b = 0 then (if a = 0 then .nan else if 0 < a then .pinf else .ninf)
    else .num (a / b)
  | .nan, _ => .nan
  | _, .nan => .nan
  | .pinf, .pinf => .nan
  | .pinf, .ninf => .nan
  | .ninf, .pinf => .nan
  | .ninf, .ninf => .nan
  | .num _, .pinf => .num 0
  | .num _, .ninf => .num 0
  | .pinf, .num b => if b < 0 then .ninf else .pinf
  | .ninf, .num b => if b < 0 then .pinf else .ninf

/-- IEEE square root, with the float square root on nonnegative rationals
abstracted as `sqrtF`. -/
def fsqrt (sqrtF : ℚ → ℚ) : FVal → FVal
  | .num q => if q < 0 then .nan else .num (sqrtF q)
  | .pinf => .pinf
  | .ninf => .nan
  | .nan => .nan

/-- Left-to-right float sum of a list, starting from 0. -/
def fsum (x : List FVal) : FVal := x.foldl fadd (.num 0)

/-- Float `x.mean()`: sum over length. -/
def fmean (x : List FVal) : FVal := fdiv (fsum x) (.num (x.length : ℚ))

/-- Float sample variance with the `n - 1` denominator (`ddof = 1`). -/
def fvar (x : List FVal) : FVal :=
  fdiv (fsum (x.map (fun v => fmul (fsub v (fmean x)) (fsub v (fmean x)))))
    (.num ((x.length : ℚ) - 1))

/-- Float `x.std()`: square root of the sample variance. -/
def fstd (sqrtF : ℚ → ℚ) (x : List FVal) : FVal := fsqrt sqrtF (fvar x)

/-- Embedding of `normalize` (source lines 37-42) over float values:
`(x - x.mean()) / x.std()` element-wise, with no guard of any kind on a
zero standard deviation.  It is a total function: no exception path
exists in the source. -/
def normalizeF (sqrtF : ℚ → ℚ) (x : List FVal) : List FVal :=
  x.map (fun v => fdiv (fsub v (fmean x)) (fstd sqrtF x))

/-!
Concrete instantiations of the abstract library functions, used to
evaluate the embedding at specific inputs.
-/

/-- A concrete seeding function. -/
def idSeed : ℕ → ℕ := fun n => n

/-- A concrete innovation generator: always draw 0, keep the state. -/
def zeroDraw : ℕ → ℚ × ℕ := fun s => ((0 : ℚ), s)

/-- A concrete square-root stand-in that is exact at 0. -/
def zeroSqrt : ℚ → ℚ := fun _ => 0

/-- A concrete strictly monotone stand-in for the normal quantile. -/
def idPpf : ℚ → ℚ := fun q => q

/-- A concrete square-root stand-in that is exact at 1 and 4. -/
def sqrtW : ℚ → ℚ := fun q => if q = 1 then 1 else if q = 4 then 2 else 0

/-- Value of a binary digit list (most significant digit first). -/
def binVal (l : List ℕ) : ℕ := l.foldl (fun acc d => 2 * acc + d) 0

/-! Helper lemmas about the aggregation step. -/

lemma dedup_append_singleton {α : Type} [DecidableEq α] (l : List α) (a : α) :
    (l ++ [a]).dedup = l.dedup.filter (fun x => x ≠ a) ++ [a] := by
  induction l with
  | nil => simp
  | cons b l ih =>
    by_cases h1 : b ∈ l ++ [a]
    · rw [List.cons_append, List.dedup_cons_of_mem h1, ih]
      rcases List.mem_append.mp h1 with h | h
      · rw [List.dedup_cons_of_mem h]
      · have hb : b = a := List.mem_singleton.mp h
        by_cases h2 : b ∈ l
        · rw [List.dedup_cons_of_mem h2]
        · rw [List.dedup_cons_of_not_mem h2, List.filter_cons]
          simp [hb]
    · have hbl : b ∉ l := fun h => h1 (List.mem_append.mpr (Or.inl h))
      have hba : b ≠ a := fun h => h1 (List.mem_append.mpr (Or.inr (by simp [h])))
      rw [List.cons_append, List.dedup_cons_of_not_mem h1, ih,
        List.dedup_cons_of_not_mem hbl, List.filter_cons]
      simp [hba]

lemma filter_ne_range (q : ℕ) :
    (List.range q).filter (fun x => x ≠ q) = List.range q := by
  apply List.filter_eq_self.mpr
  intro a ha
  have : a < q := List.mem_range.mp ha
  simp
  omega

lemma ceil_div_floor_cases (n f : ℕ) (hf : 0 < f) :
    (n + f - 1) / f = n / f ∨ (n + f - 1) / f = n / f + 1 := by
  have hmod := Nat.div_add_mod n f
  by_cases hr : n % f = 0
  · left
    have hn : n + f - 1 = f * (n / f) + (f - 1) := by omega
    rw [hn, Nat.mul_add_div hf, Nat.div_eq_of_lt (show f - 1 < f by omega)]
    omega
  · right
    have hlt : n % f < f := Nat.mod_lt n hf
    have hn : n + f - 1 = f * (n / f) + (f + (n % f - 1)) := by omega
    rw [hn, Nat.mul_add_div hf]
    have h1 : f + (n % f - 1) = f * 1 + (n % f - 1) := by omega
    rw [h1, Nat.mul_add_div hf,
      Nat.div_eq_of_lt (show n % f - 1 < f by omega)]

lemma ceil_div_succ (n f : ℕ) (hf : 0 < f) : (n + 1 + f - 1) / f = n / f + 1 := by
  have hn : n + 1 + f - 1 = n + f := by omega
  rw [hn, Nat.add_div_right n hf]

lemma ceil_div_eq_cases (n f : ℕ) (hf : 0 < f) :
    (n + f - 1) / f = n / f ∨ (n + f - 1) / f = n / f + 1 :=
  ceil_div_floor_cases n f hf

lemma aggKeys_eq (n f : ℕ) (hf : 0 < f) :
    aggKeys n f = List.range ((n + f - 1) / f) := by
  induction n with
  | zero =>
    rw [aggKeys]
    have h0 : (0 + f - 1) / f = 0 := Nat.div_eq_of_lt (by omega)
    rw [h0]
    simp
  | succ n ih =>
    rw [aggKeys, List.range_succ, List.map_append, List.map_cons, List.map_nil,
      dedup_append_singleton]
    rw [aggKeys] at ih
    rw [ih, ceil_div_succ n f hf]
    rcases ceil_div_eq_cases n f hf with h | h
    · rw [h, filter_ne_range, ← List.range_succ]
    · rw [h, List.range_succ, List.filter_append, filter_ne_range]
      simp [← List.range_succ]

lemma nat_div_eq_iff {f : ℕ} (hf : 0 < f) (i k : ℕ) :
    i / f = k ↔ k * f ≤ i ∧ i < (k + 1) * f := by
  constructor
  · intro h
    refine ⟨(Nat.le_div_iff_mul_le hf).mp (le_of_eq h.symm), ?_⟩
    exact (Nat.div_lt_iff_lt_mul hf).mp (by omega)
  · rintro ⟨h1, h2⟩
    have ha := (Nat.le_div_iff_mul_le hf).mpr h1
    have hb := (Nat.div_lt_iff_lt_mul hf).mpr h2
    omega

lemma aggGroup_eq (n f k : ℕ) (hf : 0 < f) :
    aggGroup n f k = List.range' (k * f) (min ((k + 1) * f) n - k * f) := by
  induction n with
  | zero => simp [aggGroup]
  | succ n ih =>
    rw [aggGroup, List.range_succ, List.filter_append]
    rw [aggGroup] at ih
    rw [ih]
    by_cases hk : n / f = k
    · have hb := (nat_div_eq_iff hf n k).mp hk
      have h1 : min ((k + 1) * f) n = n := by omega
      have h2 : min ((k + 1) * f) (n + 1) = n + 1 := by omega
      rw [h1, h2, List.filter_cons]
      have h3 : n + 1 - k * f = (n - k * f) + 1 := by omega
      rw [h3, List.range'_concat]
      have h4 : k * f + 1 * (n - k * f) = n := by omega
      rw [h4]
      simp [hk]
    · have hb := (nat_div_eq_iff hf n k).not.mp hk
      have hkf : (k + 1) * f = k * f + f := by ring
      rw [List.filter_cons]
      have hd : (decide (n / f = k)) = false := by simp [hk]
      rw [hd]
      simp only [Bool.false_eq_true, if_false, List.filter_nil, List.append_nil]
      congr 1
      omega

lemma map_getD_range' (x : List ℚ) :
    ∀ (m s : ℕ), s + m ≤ x.length →
      (List.range' s m).map (fun i => x.getD i 0) = (x.drop s).take m := by
  intro m
  induction m with
  | zero => intro s _; simp
  | succ m ih =>
    intro s h
    have hs : s < x.length := by omega
    rw [List.range'_succ, List.map_cons, List.drop_eq_get_cons hs,
      List.take_succ_cons, ih (s + 1) (by omega)]
    rw [List.getD_eq_get x 0 hs]

lemma paaCore_length (x : List ℚ) (f : ℕ) (hf : 0 < f) :
    (paaCore x f).length = (x.length + f - 1) / f := by
  rw [paaCore, aggKeys_eq _ _ hf]
  simp

lemma paaCore_getD (x : List ℚ) (f k : ℕ) (hf : 0 < f)
    (hk : k < (x.length + f - 1) / f) :
    (paaCore x f).getD k 0 = listMean ((x.drop (k * f)).take f) := by
  have hk1 : (k + 1) * f ≤ x.length + f - 1 := (Nat.le_div_iff_mul_le hf).mp hk
  have hkf : (k + 1) * f = k * f + f := by ring
  have hkn : k * f < x.length := by omega
  rw [paaCore, aggKeys_eq _ _ hf]
  have hlen : k < ((List.range ((x.length + f - 1) / f)).map
      (fun k => listMean ((aggGroup x.length f k).map (fun i => x.getD i 0)))).length := by
    simp [hk]
  rw [List.getD_eq_getElem _ _ hlen, List.getElem_map, List.getElem_range]
  rw [aggGroup_eq _ _ _ hf]
  rw [map_getD_range' x _ _ (by omega)]
  congr 1
  rw [List.take_eq_take]
  have hd : (x.drop (k * f)).length = x.length - k * f := List.length_drop _ _
  rw [hd]
  omega

/-! Helper lemmas about the binary category labels. -/

lemma binVal_append_digit (l : List ℕ) (d : ℕ) :
    binVal (l ++ [d]) = 2 * binVal l + d := by
  rw [binVal, List.foldl_append, List.foldl_cons, List.foldl_nil, binVal]

lemma binVal_binDigitsAux : ∀ fuel n, n ≤ fuel →
    binVal (binDigitsAux fuel n) = n := by
  intro fuel
  induction fuel with
  | zero =>
    intro n hn
    have : n = 0 := by omega
    subst this
    rfl
  | succ fuel ih =>
    intro n hn
    match n with
    | 0 => rfl
    | m + 1 =>
      rw [binDigitsAux, binVal_append_digit, ih ((m + 1) / 2) (by omega)]
      omega

lemma binRepr_injective : Function.Injective binRepr := by
  intro m n h
  by_cases hm : m = 0 <;> by_cases hn : n = 0
  · omega
  · exfalso
    rw [binRepr, binRepr, if_pos hm, if_neg hn] at h
    have hv := binVal_binDigitsAux n n le_rfl
    rw [← h] at hv
    have : binVal [0] = 0 := rfl
    omega
  · exfalso
    rw [binRepr, binRepr, if_neg hm, if_pos hn] at h
    have hv := binVal_binDigitsAux m m le_rfl
    rw [h] at hv
    have : binVal [0] = 0 := rfl
    omega
  · rw [binRepr, binRepr, if_neg hm, if_neg hn] at h
    have hv1 := binVal_binDigitsAux m m le_rfl
    have hv2 := binVal_binDigitsAux n n le_rfl
    rw [h] at hv1
    omega

lemma cat_names_length (a : ℕ) : (cat_names a).length = a := by
  simp [cat_names]

lemma cat_names_nodup (a : ℕ) : (cat_names a).Nodup :=
  (List.nodup_range a).map binRepr_injective

/-! Helper lemmas about the breakpoints. -/

lemma breakpoints_length (ppf : ℚ → ℚ) (a : ℕ) :
    (breakpoints ppf a).length = a - 1 := by
  rw [breakpoints, breakpoints_0_to_1, List.length_map, List.length_map,
    List.length_range']

lemma breakpoints_0_to_1_mem (a : ℕ) (q : ℚ) (hq : q ∈ breakpoints_0_to_1 a) :
    0 < q ∧ q < 1 := by
  rw [breakpoints_0_to_1] at hq
  rcases List.mem_map.mp hq with ⟨i, hi, rfl⟩
  rcases List.mem_range'_1.mp hi with ⟨h1, h2⟩
  have hia : i < a := by omega
  have ha : 0 < a := by omega
  have haq : (0 : ℚ) < (a : ℚ) := by exact_mod_cast ha
  constructor
  · apply div_pos _ haq
    exact_mod_cast h1
  · rw [div_lt_one haq]
    exact_mod_cast hia

lemma sorted_breakpoints_0_to_1 (a : ℕ) :
    (breakpoints_0_to_1 a).Pairwise (· < ·) := by
  rw [breakpoints_0_to_1, List.pairwise_map]
  apply List.Pairwise.imp_of_mem ?_ (List.pairwise_lt_range' 1 (a - 1) 1)
  intro i j hi hj hij
  rcases List.mem_range'_1.mp hi with ⟨hi1, hi2⟩
  rcases List.mem_range'_1.mp hj with ⟨hj1, hj2⟩
  have ha : (0 : ℚ) < (a : ℚ) := by
    have h0 : 0 < a := by omega
    exact_mod_cast h0
  apply div_lt_div_of_pos_right ?_ ha
  exact_mod_cast hij

lemma breakpoints_sorted (ppf : ℚ → ℚ) (a : ℕ)
    (hppf : StrictMonoOn ppf (Set.Ioo (0 : ℚ) 1)) :
    (breakpoints ppf a).Pairwise (· < ·) := by
  rw [breakpoints, List.pairwise_map]
  apply List.Pairwise.imp_of_mem ?_ (sorted_breakpoints_0_to_1 a)
  intro p q hp hq hpq
  have hp1 := breakpoints_0_to_1_mem a p hp
  have hq1 := breakpoints_0_to_1_mem a q hq
  exact hppf (Set.mem_Ioo.mpr hp1) (Set.mem_Ioo.mpr hq1) hpq

/-! Helper lemmas about the interval location performed by `pd.cut`. -/

lemma binIndex_le_length (B : List ℚ) (v : ℚ) : binIndex B v ≤ B.length :=
  List.countP_le_length _

lemma get_lt_iff_lt_binIndex (v : ℚ) :
    ∀ (B : List ℚ), B.Pairwise (· < ·) →
      ∀ (j : ℕ) (hj : j < B.length), (B.get ⟨j, hj⟩ < v ↔ j < binIndex B v) := by
  intro B
  induction B with
  | nil =>
    intro _ j hj
    simp at hj
  | cons b T ih =>
    intro hp j hj
    rw [List.pairwise_cons] at hp
    by_cases hb : b < v
    · have hc : binIndex (b :: T) v = binIndex T v + 1 := by
        rw [binIndex, binIndex, List.countP_cons]
        simp [hb]
      cases j with
      | zero =>
        have hget : (b :: T).get ⟨0, hj⟩ = b := rfl
        rw [hc, hget]
        exact ⟨fun _ => by omega, fun _ => hb⟩
      | succ j =>
        have hj' : j < T.length := by simpa using hj
        have hiff := ih hp.2 j hj'
        have hget : (b :: T).get ⟨j + 1, hj⟩ = T.get ⟨j, hj'⟩ := rfl
        rw [hc, hget]
        constructor
        · intro hlt
          have := hiff.mp hlt
          omega
        · intro hlt
          exact hiff.mpr (by omega)
    · have hvb : v ≤ b := le_of_not_lt hb
      have hT0 : T.countP (fun t => decide (t < v)) = 0 := by
        apply List.countP_eq_zero.mpr
        intro t ht
        simp only [decide_eq_true_eq, not_lt]
        exact le_trans hvb (le_of_lt (hp.1 t ht))
      have hc : binIndex (b :: T) v = 0 := by
        rw [binIndex, List.countP_cons, hT0]
        simp [hb]
      rw [hc]
      cases j with
      | zero =>
        have hget : (b :: T).get ⟨0, hj⟩ = b := rfl
        rw [hget]
        exact ⟨fun h => absurd h hb, fun h => absurd h (by omega)⟩
      | succ j =>
        have hj' : j < T.length := by simpa using hj
        have hmem : T.get ⟨j, hj'⟩ ∈ T := List.get_mem T j hj'
        have hgt : v ≤ T.get ⟨j, hj'⟩ := le_trans hvb (le_of_lt (hp.1 _ hmem))
        have hget : (b :: T).get ⟨j + 1, hj⟩ = T.get ⟨j, hj'⟩ := rfl
        rw [hget]
        constructor
        · intro hlt
          exact absurd hlt (not_lt.mpr hgt)
        · intro h
          exact absurd h (by omega)

lemma binIndex_eq_iff (B : List ℚ) (hB : B.Pairwise (· < ·)) (v : ℚ) (i : ℕ)
    (h1 : 1 ≤ i) (h2 : i < B.length) :
    binIndex B v = i ↔ B.getD (i - 1) 0 < v ∧ v ≤ B.getD i 0 := by
  have hi1 : i - 1 < B.length := by omega
  rw [List.getD_eq_get B 0 hi1, List.getD_eq_get B 0 h2]
  have ha := get_lt_iff_lt_binIndex v B hB (i - 1) hi1
  have hb := get_lt_iff_lt_binIndex v B hB i h2
  constructor
  · intro hc
    constructor
    · exact ha.mpr (by omega)
    · by_contra hv
      have := hb.mp (lt_of_not_le hv)
      omega
  · rintro ⟨hlow, hhigh⟩
    have hlt := ha.mp hlow
    have hnlt : ¬ (i < binIndex B v) := fun hc => absurd (hb.mpr hc) (not_lt.mpr hhigh)
    omega

lemma binIndex_get_self (B : List ℚ) (hB : B.Pairwise (· < ·)) (i : ℕ)
    (h : i < B.length) : binIndex B (B.get ⟨i, h⟩) = i := by
  have hmono : ∀ (p q : ℕ) (hp : p < B.length) (hq : q < B.length), p < q →
      B.get ⟨p, hp⟩ < B.get ⟨q, hq⟩ := by
    intro p q hp hq hpq
    exact List.pairwise_iff_get.mp hB ⟨p, hp⟩ ⟨q, hq⟩ hpq
  set v := B.get ⟨i, h⟩ with hv
  have hub : ¬ (i < binIndex B v) := by
    intro hc
    have := (get_lt_iff_lt_binIndex v B hB i h).mpr hc
    exact lt_irrefl _ this
  have hlb : ¬ (binIndex B v < i) := by
    intro hc
    have hcl : binIndex B v < B.length := by omega
    have hlt := hmono (binIndex B v) i hcl h hc
    have := (get_lt_iff_lt_binIndex v B hB (binIndex B v) hcl).mp hlt
    omega
  omega

/-! Helper lemmas about the symbol assignment. -/

lemma binIndex_lt_alphabet (ppf : ℚ → ℚ) (a : ℕ) (v : ℚ) (ha : 1 ≤ a) :
    binIndex (breakpoints ppf a) v < a := by
  have h1 := binIndex_le_length (breakpoints ppf a) v
  rw [breakpoints_length] at h1
  omega

lemma saxSymbol_mem (ppf : ℚ → ℚ) (a : ℕ) (v : ℚ) (ha : 1 ≤ a) :
    saxSymbol ppf a v ∈ cat_names a := by
  have hlt : binIndex (breakpoints ppf a) v < (cat_names a).length := by
    rw [cat_names_length]
    exact binIndex_lt_alphabet ppf a v ha
  rw [saxSymbol, List.getD_eq_get _ _ hlt]
  exact List.get_mem _ _ hlt

/-! Helper lemmas about the generated series and the pipeline. -/

lemma drawN_length (draw : ℕ → ℚ × ℕ) :
    ∀ (k s : ℕ), (drawN draw k s).1.length = k := by
  intro k
  induction k with
  | zero => intro s; rfl
  | succ k ih =>
    intro s
    rw [drawN]
    simpa using ih (draw s).2

lemma maFilter_length (c : ℚ) :
    ∀ (l : List ℚ) (p : ℚ), (maFilter c p l).length = l.length := by
  intro l
  induction l with
  | nil => intro p; rfl
  | cons e es ih =>
    intro p
    rw [maFilter]
    simpa using ih e

lemma make_timeseries_length (seedFn : ℕ → ℕ) (draw : ℕ → ℚ × ℕ) (s : ℕ) :
    (make_timeseries seedFn draw s).1.1.length = 100 := by
  rw [make_timeseries]
  simp only []
  rw [maFilter_length, drawN_length]

lemma normalize_length (sqrtQ : ℚ → ℚ) (x : List ℚ) :
    (normalize sqrtQ x).length = x.length := by
  rw [normalize, List.length_map]

lemma saxCore_length (ppf : ℚ → ℚ) (x : List ℚ) (a : ℕ) :
    (saxCore ppf x a).length = x.length := by
  rw [saxCore, List.length_map]

lemma transform_ok (ppf : ℚ → ℚ) (x : List ℚ) (a : ℕ) (ha : a ≠ 0) :
    transform_to_SAX ppf x a = Except.ok (saxCore ppf x a) := by
  rw [transform_to_SAX, if_pos]
  rw [cat_names_length, breakpoints_length]
  omega

lemma produce_ok (seedFn : ℕ → ℕ) (draw : ℕ → ℚ × ℕ) (sqrtQ : ℚ → ℚ)
    (ppf : ℚ → ℚ) (f a s : ℕ) (hf : f ≠ 0) (ha : a ≠ 0) :
    produce_SAX_data seedFn draw sqrtQ ppf f a s
      = (Except.ok ((make_timeseries seedFn draw s).1.1,
          saxCore ppf
            (normalize sqrtQ (paaCore (make_timeseries seedFn draw s).1.1 f)) a,
          100),
         (make_timeseries seedFn draw s).2) := by
  rw [produce_SAX_data]
  simp only [reduce_PAA, if_neg hf, transform_ok ppf _ a ha]
  rfl

lemma produce_zeroDivision (seedFn : ℕ → ℕ) (draw : ℕ → ℚ × ℕ)
    (sqrtQ : ℚ → ℚ) (ppf : ℚ → ℚ) (a s : ℕ) :
    (produce_SAX_data seedFn draw sqrtQ ppf 0 a s).1
      = Except.error SAXErr.zeroDivisionError := by
  rw [produce_SAX_data]
  simp [reduce_PAA]

lemma produce_valueError (seedFn : ℕ → ℕ) (draw : ℕ → ℚ × ℕ)
    (sqrtQ : ℚ → ℚ) (ppf : ℚ → ℚ) (f s : ℕ) (hf : f ≠ 0) :
    (produce_SAX_data seedFn draw sqrtQ ppf f 0 s).1
      = Except.error SAXErr.valueError := by
  rw [produce_SAX_data]
  simp only [reduce_PAA, if_neg hf]
  rw [transform_to_SAX, if_neg]
  rw [cat_names_length, breakpoints_length]
  omega

/-! Helper lemmas about means and moments over exact rationals. -/

lemma listMean_singleton (v : ℚ) : listMean [v] = v := by
  simp [listMean]

lemma sum_map_sub_mul (x : List ℚ) (c d : ℚ) :
    (x.map (fun v => (v - c) * d)).sum = (x.sum - (x.length : ℚ) * c) * d := by
  induction x with
  | nil => simp
  | cons a l ih =>
    rw [List.map_cons, List.sum_cons, ih, List.sum_cons, List.length_cons]
    push_cast
    ring

lemma sum_map_sq_mul (x : List ℚ) (c d : ℚ) :
    (x.map (fun v => ((v - c) * d) ^ 2)).sum
      = (x.map (fun v => (v - c) ^ 2)).sum * d ^ 2 := by
  induction x with
  | nil => simp
  | cons a l ih =>
    rw [List.map_cons, List.sum_cons, ih, List.map_cons, List.sum_cons]
    ring

lemma two_le_length_of_sampleVar_ne_zero (x : List ℚ) (hv : sampleVar x ≠ 0) :
    2 ≤ x.length := by
  match x with
  | [] =>
    exfalso
    apply hv
    simp [sampleVar]
  | [a] =>
    exfalso
    apply hv
    rw [sampleVar]
    norm_num
  | a :: b :: t =>
    simp only [List.length_cons]
    omega

lemma sum_sub_length_mul_mean (x : List ℚ) (hn : x.length ≠ 0) :
    x.sum - (x.length : ℚ) * listMean x = 0 := by
  rw [listMean]
  have hq : (x.length : ℚ) ≠ 0 := by exact_mod_cast hn
  field_simp

lemma listMean_normalize (sqrtQ : ℚ → ℚ) (x : List ℚ) (hn : x.length ≠ 0) :
    listMean (normalize sqrtQ x) = 0 := by
  rw [normalize, listMean, List.length_map]
  have hx : (x.map (fun v => (v - listMean x) / sampleStd sqrtQ x)).sum = 0 := by
    have hrw : (fun v => (v - listMean x) / sampleStd sqrtQ x)
        = (fun v => (v - listMean x) * (sampleStd sqrtQ x)⁻¹) := by
      funext v
      rw [div_eq_mul_inv]
    rw [hrw, sum_map_sub_mul, sum_sub_length_mul_mean x hn, zero_mul]
  rw [hx, zero_div]

lemma sampleVar_normalize (sqrtQ : ℚ → ℚ) (x : List ℚ)
    (hv : sampleVar x ≠ 0)
    (hsq : sqrtQ (sampleVar x) ^ 2 = sampleVar x) :
    sampleVar (normalize sqrtQ x) = 1 := by
  have hn2 := two_le_length_of_sampleVar_ne_zero x hv
  have hn : x.length ≠ 0 := by omega
  have hmean := listMean_normalize sqrtQ x hn
  have hstd : sampleStd sqrtQ x ≠ 0 := by
    intro hc
    apply hv
    rw [sampleStd] at hc
    rw [← hsq, hc]
    ring
  rw [sampleVar, hmean, normalize, List.length_map, List.map_map]
  have hrw : ((fun v => (v - 0) ^ 2) ∘ fun v => (v - listMean x) / sampleStd sqrtQ x)
      = (fun v => ((v - listMean x) * (sampleStd sqrtQ x)⁻¹) ^ 2) := by
    funext v
    rw [Function.comp_apply, sub_zero, div_eq_mul_inv]
  rw [hrw, sum_map_sq_mul]
  have hvar : (x.map (fun v => (v - listMean x) ^ 2)).sum
      = sampleVar x * ((x.length : ℚ) - 1) := by
    rw [sampleVar]
    have hd : ((x.length : ℚ) - 1) ≠ 0 := by
      have : (2 : ℚ) ≤ (x.length : ℚ) := by exact_mod_cast hn2
      intro hc
      nlinarith
    field_simp
  rw [hvar]
  have hd : ((x.length : ℚ) - 1) ≠ 0 := by
    have : (2 : ℚ) ≤ (x.length : ℚ) := by exact_mod_cast hn2
    intro hc
    nlinarith
  have hs2 : (sampleStd sqrtQ x)⁻¹ ^ 2 = (sampleVar x)⁻¹ := by
    rw [inv_pow, sampleStd, hsq]
  rw [hs2]
  field_simp

/-! Helper lemmas about the float-value model. -/

lemma foldl_fadd_replicate :
    ∀ (n : ℕ) (q c : ℚ),
      List.foldl fadd (FVal.num q) (List.replicate n (FVal.num c))
        = FVal.num (q + n * c) := by
  intro n
  induction n with
  | zero =>
    intro q c
    simp
  | succ n ih =>
    intro q c
    rw [List.replicate_succ, List.foldl_cons]
    have ha : fadd (FVal.num q) (FVal.num c) = FVal.num (q + c) := rfl
    rw [ha, ih]
    congr 1
    push_cast
    ring

lemma fsum_replicate (n : ℕ) (c : ℚ) :
    fsum (List.replicate n (FVal.num c)) = FVal.num (n * c) := by
  rw [fsum, foldl_fadd_replicate]
  norm_num

lemma fmean_replicate (n : ℕ) (c : ℚ) (hn : n ≠ 0) :
    fmean (List.replicate n (FVal.num c)) = FVal.num c := by
  rw [fmean, fsum_replicate, List.length_replicate]
  have hq : ((n : ℚ)) ≠ 0 := by exact_mod_cast hn
  simp only [fdiv, if_neg hq]
  rw [mul_comm, mul_div_assoc, div_self hq, mul_one]

/-! The claims. -/

/-- C7: the series generator is deterministic — `make_timeseries` reseeds
the global generator with the fixed seed 12345 on every call, so its result
(and hence the whole pipeline's result for fixed parameters) does not
depend on the incoming generator state: two runs agree exactly. -/
theorem c7_generator_determinism (seedFn : ℕ → ℕ) (draw : ℕ → ℚ × ℕ)
    (sqrtQ ppf : ℚ → ℚ) (f a : ℕ) (s₁ s₂ : ℕ) :
    make_timeseries seedFn draw s₁ = make_timeseries seedFn draw s₂
    ∧ produce_SAX_data seedFn draw sqrtQ ppf f a s₁
        = produce_SAX_data seedFn draw sqrtQ ppf f a s₂ :=
  ⟨rfl, rfl⟩

/-- C9: on a constant series of length at least 1, `normalize` raises no
error and signals no typed failure: it is a total function whose unguarded
division by the zero standard deviation produces the indeterminate value
NaN (`0 / 0`) at every position, preserving the length.  The only
assumption on the abstracted float square root is exactness at 0. -/
theorem c9_constant_series_nan (sqrtF : ℚ → ℚ) (c : ℚ) (n : ℕ)
    (hs : sqrtF 0 = 0) (hn : 1 ≤ n) :
    normalizeF sqrtF (List.replicate n (FVal.num c)) = List.replicate n FVal.nan
    ∧ (normalizeF sqrtF (List.replicate n (FVal.num c))).length = n := by
  have hn0 : n ≠ 0 := by omega
  have hmean := fmean_replicate n c hn0
  have hsub : fsub (FVal.num c) (FVal.num c) = FVal.num 0 := by
    simp only [fsub, sub_self]
  have hmul : fmul (FVal.num 0) (FVal.num 0) = FVal.num 0 := by
    simp only [fmul, mul_zero]
  have hvarmap : (List.replicate n (FVal.num c)).map
      (fun v => fmul (fsub v (fmean (List.replicate n (FVal.num c))))
        (fsub v (fmean (List.replicate n (FVal.num c)))))
      = List.replicate n (FVal.num 0) := by
    rw [hmean, List.map_replicate, hsub, hmul]
  have hvar : fvar (List.replicate n (FVal.num c))
      = fdiv (FVal.num 0) (FVal.num ((n : ℚ) - 1)) := by
    rw [fvar, hvarmap, fsum_replicate, List.length_replicate, mul_zero]
  have helem : fdiv (fsub (FVal.num c) (fmean (List.replicate n (FVal.num c))))
      (fstd sqrtF (List.replicate n (FVal.num c))) = FVal.nan := by
    rw [hmean, hsub, fstd, hvar]
    by_cases h1 : n = 1
    · subst h1
      have h0 : ((1 : ℕ) : ℚ) - 1 = 0 := by norm_num
      rw [h0]
      simp [fdiv, fsqrt]
    · have hne : ((n : ℚ) - 1) ≠ 0 := by
        have h2 : 2 ≤ n := by omega
        have h2q : (2 : ℚ) ≤ (n : ℚ) := by exact_mod_cast h2
        intro hc
        linarith
      simp only [fdiv, if_neg hne, zero_div]
      simp only [fsqrt, if_neg (lt_irrefl (0 : ℚ))]
      rw [hs]
      simp [fdiv]
  refine ⟨?_, ?_⟩
  · rw [normalizeF, List.map_replicate, helem]
  · rw [normalizeF, List.length_map, List.length_replicate]

/-- Witness for C9 at a concrete input: the constant series `[2, 2, 2]`
normalizes to `[NaN, NaN, NaN]`. -/
theorem c9_constant_series_witness :
    normalizeF zeroSqrt (List.replicate 3 (FVal.num 2))
      = List.replicate 3 FVal.nan :=
  (c9_constant_series_nan zeroSqrt 2 3 rfl (by norm_num)).1

/-- C10: aggregation with frame size 1 is the identity — every window is a
single sample, so `reduce_PAA x 1` succeeds and returns `x` itself. -/
theorem c10_frame_one_identity (x : List ℚ) : reduce_PAA x 1 = Except.ok x := by
  rw [reduce_PAA, if_neg one_ne_zero]
  congr 1
  apply List.ext_get
  · rw [paaCore_length x 1 one_pos]
    omega
  · intro k h1 h2
    have hcl : k < (x.length + 1 - 1) / 1 := by
      rw [paaCore_length x 1 one_pos] at h1
      exact h1
    have hg := paaCore_getD x 1 k one_pos hcl
    rw [← List.getD_eq_get (paaCore x 1) 0 h1, hg, mul_one,
      List.drop_eq_get_cons h2, List.take_succ_cons, List.take_zero,
      listMean_singleton]

/-- C2: for a valid frame size, `reduce_PAA` succeeds; the aggregate has
`ceil(n / f)` elements (written `(n + f - 1) / f`), the `k`-th of which is
the arithmetic mean of the window of input elements at indices
from `k * f` up to `min ((k + 1) * f) n` excluded, i.e. of
`(x.drop (k * f)).take f`; on `[1, ..., 10]` with frame size 3 the result
is `[2, 5, 8, 10]`. -/
theorem c2_aggregate_windows :
    (∀ (x : List ℚ) (f : ℕ), 1 ≤ f → f ≤ x.length →
      reduce_PAA x f = Except.ok (paaCore x f)
      ∧ (paaCore x f).length = (x.length + f - 1) / f
      ∧ ∀ k, k < (x.length + f - 1) / f →
          (paaCore x f).getD k 0 = listMean ((x.drop (k * f)).take f))
    ∧ reduce_PAA [1, 2, 3, 4, 5, 6, 7, 8, 9, 10] 3
        = Except.ok [2, 5, 8, 10] := by
  constructor
  · intro x f hf1 _
    refine ⟨by rw [reduce_PAA, if_neg (by omega)],
      paaCore_length x f (by omega),
      fun k hk => paaCore_getD x f k (by omega) hk⟩
  · rw [reduce_PAA, if_neg (by norm_num)]
    congr 1
    rw [paaCore]
    rw [show ([1, 2, 3, 4, 5, 6, 7, 8, 9, 10] : List ℚ).length = 10 from rfl]
    rw [show aggKeys 10 3 = [0, 1, 2, 3] from rfl]
    simp only [List.map_cons, List.map_nil]
    rw [show (aggGroup 10 3 0).map
        (fun i => ([1, 2, 3, 4, 5, 6, 7, 8, 9, 10] : List ℚ).getD i 0)
        = [1, 2, 3] from rfl]
    rw [show (aggGroup 10 3 1).map
        (fun i => ([1, 2, 3, 4, 5, 6, 7, 8, 9, 10] : List ℚ).getD i 0)
        = [4, 5, 6] from rfl]
    rw [show (aggGroup 10 3 2).map
        (fun i => ([1, 2, 3, 4, 5, 6, 7, 8, 9, 10] : List ℚ).getD i 0)
        = [7, 8, 9] from rfl]
    rw [show (aggGroup 10 3 3).map
        (fun i => ([1, 2, 3, 4, 5, 6, 7, 8, 9, 10] : List ℚ).getD i 0)
        = [10] from rfl]
    norm_num [listMean]

/-- Witness for C2 at concrete inputs: the worked example, and the window
characterization of the second aggregate element. -/
theorem c2_aggregate_witness :
    reduce_PAA [1, 2, 3, 4, 5, 6, 7, 8, 9, 10] 3 = Except.ok [2, 5, 8, 10]
    ∧ (paaCore [1, 2, 3, 4, 5, 6, 7, 8, 9, 10] 3).getD 1 0
        = listMean ((([1, 2, 3, 4, 5, 6, 7, 8, 9, 10] : List ℚ).drop (1 * 3)).take 3) := by
  have h := c2_aggregate_windows
  refine ⟨h.2, ?_⟩
  exact (h.1 [1, 2, 3, 4, 5, 6, 7, 8, 9, 10] 3 (by norm_num) (by decide)).2.2 1 (by decide)

/-- C3: when the sample variance is nonzero (which forces at least two
samples), `normalize` preserves the length, maps each element to
`(x - mean) / std` with the `n - 1` convention, and its output has sample
mean exactly 0 and sample standard deviation exactly 1; the float square
root is assumed exact at the variance and at 1, which is the idealization
the claim's floating-point tolerance allows. -/
theorem c3_normalize_moments (sqrtQ : ℚ → ℚ) (x : List ℚ)
    (hv : sampleVar x ≠ 0)
    (hsq : sqrtQ (sampleVar x) ^ 2 = sampleVar x)
    (h1 : sqrtQ 1 = 1) :
    (normalize sqrtQ x).length = x.length
    ∧ (∀ i, i < x.length →
        (normalize sqrtQ x).getD i 0
          = (x.getD i 0 - listMean x) / sampleStd sqrtQ x)
    ∧ listMean (normalize sqrtQ x) = 0
    ∧ sampleStd sqrtQ (normalize sqrtQ x) = 1 := by
  have hn2 := two_le_length_of_sampleVar_ne_zero x hv
  refine ⟨normalize_length sqrtQ x, ?_, listMean_normalize sqrtQ x (by omega), ?_⟩
  · intro i hi
    have hi' : i < (x.map
        (fun v => (v - listMean x) / sampleStd sqrtQ x)).length := by
      rw [List.length_map]
      exact hi
    rw [normalize, List.getD_eq_getElem _ 0 hi', List.getElem_map,
      List.getD_eq_getElem _ 0 hi]
  · rw [sampleStd, sampleVar_normalize sqrtQ x hv hsq, h1]

/-- Witness for C3 at a concrete input: the series `[0, 2, 4]` has sample
variance 4; normalized with a square root that is exact at 4 and 1, it has
sample mean 0 and sample standard deviation 1. -/
theorem c3_normalize_witness :
    (sampleVar [0, 2, 4] ≠ 0
      ∧ sqrtW (sampleVar [0, 2, 4]) ^ 2 = sampleVar [0, 2, 4]
      ∧ sqrtW 1 = 1)
    ∧ listMean (normalize sqrtW [0, 2, 4]) = 0
    ∧ sampleStd sqrtW (normalize sqrtW [0, 2, 4]) = 1 := by
  have hvar : sampleVar ([0, 2, 4] : List ℚ) = 4 := by
    norm_num [sampleVar, listMean]
  have hv : sampleVar ([0, 2, 4] : List ℚ) ≠ 0 := by
    rw [hvar]
    norm_num
  have hsq : sqrtW (sampleVar [0, 2, 4]) ^ 2 = sampleVar [0, 2, 4] := by
    rw [hvar]
    norm_num [sqrtW]
  have h1 : sqrtW 1 = 1 := by norm_num [sqrtW]
  have h := c3_normalize_moments sqrtW [0, 2, 4] hv hsq h1
  exact ⟨⟨hv, hsq, h1⟩, h.2.2.1, h.2.2.2⟩

/-- C4: for an alphabet size of at least 2, `transform_to_SAX` computes
exactly `a - 1` breakpoints, the `i`-th (1-indexed) being the inverse
normal CDF at `i / a`, and — since the cut probabilities are strictly
increasing inside (0, 1) and the quantile function is strictly monotone
there — the breakpoint list is strictly increasing. -/
theorem c4_breakpoints_strictly_increasing (ppf : ℚ → ℚ) (a : ℕ)
    (hppf : StrictMonoOn ppf (Set.Ioo (0 : ℚ) 1)) (ha : 2 ≤ a) :
    (breakpoints ppf a).length = a - 1
    ∧ (∀ i, 1 ≤ i → i ≤ a - 1 →
        (breakpoints ppf a).getD (i - 1) 0 = ppf ((i : ℚ) / (a : ℚ)))
    ∧ (breakpoints ppf a).Pairwise (· < ·) := by
  refine ⟨breakpoints_length ppf a, ?_, breakpoints_sorted ppf a hppf⟩
  intro i h1 h2
  have hb : breakpoints ppf a
      = (List.range' 1 (a - 1)).map (fun (j : ℕ) => ppf ((j : ℚ) / (a : ℚ))) := by
    rw [breakpoints, breakpoints_0_to_1, List.map_map]
    rfl
  have hi : i - 1 < ((List.range' 1 (a - 1)).map
      (fun (j : ℕ) => ppf ((j : ℚ) / (a : ℚ)))).length := by
    rw [List.length_map, List.length_range']
    omega
  rw [hb, List.getD_eq_getElem _ 0 hi, List.getElem_map, List.getElem_range']
  have hidx : 1 + 1 * (i - 1) = i := by omega
  rw [hidx]

/-- Witness for C4 at a concrete instantiation: with the identity as a
strictly monotone quantile stand-in and alphabet size 3, there are two
breakpoints, the first is `1/3`, and they increase strictly. -/
theorem c4_breakpoints_witness :
    (breakpoints idPpf 3).length = 2
    ∧ (breakpoints idPpf 3).getD 0 0 = idPpf ((1 : ℚ) / (3 : ℚ))
    ∧ (breakpoints idPpf 3).Pairwise (· < ·) := by
  have hm : StrictMonoOn idPpf (Set.Ioo (0 : ℚ) 1) := fun p _ q _ h => h
  have h := c4_breakpoints_strictly_increasing idPpf 3 hm (by norm_num)
  exact ⟨h.1, h.2.1 1 (by norm_num) (by norm_num), h.2.2⟩

/-- C5: for any alphabet size of at least 1, the alphabet has exactly `a`
distinct labels, the interval index of any value is below `a` (the
`±inf` sentinel bins leave no value unclassified), the assigned symbol is
an element of the alphabet, and alphabet size 1 yields no breakpoints and
the single symbol `"0"` for every value. -/
theorem c5_total_coverage (ppf : ℚ → ℚ) (a : ℕ) (v : ℚ) (ha : 1 ≤ a) :
    (cat_names a).length = a
    ∧ (cat_names a).Nodup
    ∧ binIndex (breakpoints ppf a) v < a
    ∧ saxSymbol ppf a v ∈ cat_names a
    ∧ (a = 1 → breakpoints ppf a = [] ∧ saxSymbol ppf a v = [0]) := by
  refine ⟨cat_names_length a, cat_names_nodup a, binIndex_lt_alphabet ppf a v ha,
    saxSymbol_mem ppf a v ha, ?_⟩
  rintro rfl
  exact ⟨rfl, rfl⟩

/-- Witness for C5 at a concrete input: alphabet size 3, value 0. -/
theorem c5_total_coverage_witness :
    (cat_names 3).length = 3
    ∧ (cat_names 3).Nodup
    ∧ saxSymbol idPpf 3 0 ∈ cat_names 3 := by
  have h := c5_total_coverage idPpf 3 0 (by norm_num)
  exact ⟨h.1, h.2.1, h.2.2.2.1⟩

/-- C6: with strictly increasing breakpoints, `pd.cut`'s right-closed
convention places a value in the interior interval `i` (with `1 ≤ i` below
the breakpoint count) exactly when `breakpoint[i-1] < v ≤ breakpoint[i]`,
and a value exactly equal to breakpoint `i` is assigned to interval `i`,
the interval whose upper bound it is. -/
theorem c6_right_closed_intervals (ppf : ℚ → ℚ) (a : ℕ) (v : ℚ) (i : ℕ)
    (hppf : StrictMonoOn ppf (Set.Ioo (0 : ℚ) 1)) (ha : 2 ≤ a)
    (hi : i < (breakpoints ppf a).length) :
    (1 ≤ i →
      (binIndex (breakpoints ppf a) v = i
        ↔ (breakpoints ppf a).getD (i - 1) 0 < v
            ∧ v ≤ (breakpoints ppf a).getD i 0))
    ∧ binIndex (breakpoints ppf a) ((breakpoints ppf a).getD i 0) = i := by
  have hs := breakpoints_sorted ppf a hppf
  constructor
  · intro h1
    exact binIndex_eq_iff _ hs v i h1 hi
  · rw [List.getD_eq_get _ 0 hi]
    exact binIndex_get_self _ hs i hi

/-- Witness for C6 at a concrete instantiation: identity quantile stand-in,
alphabet size 3, value `2/3` (the upper breakpoint of interval 1). -/
theorem c6_right_closed_witness :
    (binIndex (breakpoints idPpf 3) (2 / 3) = 1
      ↔ (breakpoints idPpf 3).getD 0 0 < 2 / 3
          ∧ (2 / 3 : ℚ) ≤ (breakpoints idPpf 3).getD 1 0)
    ∧ binIndex (breakpoints idPpf 3) ((breakpoints idPpf 3).getD 1 0) = 1 := by
  have hm : StrictMonoOn idPpf (Set.Ioo (0 : ℚ) 1) := fun p _ q _ h => h
  have h := c6_right_closed_intervals idPpf 3 (2 / 3) 1 hm (by norm_num)
    (by rw [breakpoints_length]; norm_num)
  exact ⟨h.1 (by norm_num), h.2⟩

/-- C8: the pipeline aggregates, then normalizes the aggregated series,
then SAX-encodes, in that order, and returns the raw series, the symbolic
series and the length; for the fixed generated length 100 with frame
size 4 and alphabet size 5, the symbolic series has length 25 and every
element belongs to the 5-symbol alphabet. -/
theorem c8_pipeline_order_and_shape (seedFn : ℕ → ℕ) (draw : ℕ → ℚ × ℕ)
    (sqrtQ ppf : ℚ → ℚ) (s : ℕ) :
    produce_SAX_data seedFn draw sqrtQ ppf 4 5 s
      = (Except.ok ((make_timeseries seedFn draw s).1.1,
          saxCore ppf (normalize sqrtQ
            (paaCore (make_timeseries seedFn draw s).1.1 4)) 5, 100),
         (make_timeseries seedFn draw s).2)
    ∧ (saxCore ppf (normalize sqrtQ
        (paaCore (make_timeseries seedFn draw s).1.1 4)) 5).length = 25
    ∧ (saxCore ppf (normalize sqrtQ
        (paaCore (make_timeseries seedFn draw s).1.1 4)) 5).all
        (fun c => decide (c ∈ cat_names 5)) = true := by
  refine ⟨produce_ok seedFn draw sqrtQ ppf 4 5 s (by norm_num) (by norm_num),
    ?_, ?_⟩
  · rw [saxCore_length, normalize_length, paaCore_length _ _ (by norm_num),
      make_timeseries_length]
  · apply List.all_eq_true.mpr
    intro c hc
    rw [saxCore] at hc
    rcases List.mem_map.mp hc with ⟨v, _, rfl⟩
    exact decide_eq_true (saxSymbol_mem ppf 5 v (by norm_num))

/-- C1 counterexample: the core transform performs no parameter
validation.  Called with `frameSize = 101 = n + 1` (out of range) it does
not raise anything: it runs the whole computation and returns a
successful result, and in particular does not produce the
`InvalidParameterError` condition the claim requires. -/
theorem c1_no_validation_counterexample :
    exceptIsOk ((produce_SAX_data idSeed zeroDraw zeroSqrt idPpf 101 5 0).1) = true
    ∧ (produce_SAX_data idSeed zeroDraw zeroSqrt idPpf 101 5 0).1
        ≠ Except.error SAXErr.invalidParameterError := by
  have h := produce_ok idSeed zeroDraw zeroSqrt idPpf 101 5 0 (by norm_num)
    (by norm_num)
  constructor
  · rw [h]
    rfl
  · rw [h]
    simp

/-- C1 amended: the core transform never raises an invalid-parameter
condition; with any nonzero frame and alphabet sizes — in range or not —
it runs to completion and returns a result, while frame size 0 hits the
unguarded division by zero inside aggregation and alphabet size 0 hits
`pd.cut`'s label/bin mismatch; the `[1, n]`-and-integrality validation
(rejecting frame size 0, `n + 1` and `5/2`, and alphabet size 0, each
with an error popup, before the transform is invoked) lives in the GUI
event handler, not in the core. -/
theorem c1_core_validation_amended (seedFn : ℕ → ℕ) (draw : ℕ → ℚ × ℕ)
    (sqrtQ ppf : ℚ → ℚ) (f a s : ℕ) (ea : Option ℚ) :
    (produce_SAX_data seedFn draw sqrtQ ppf f a s).1
        ≠ Except.error SAXErr.invalidParameterError
    ∧ (1 ≤ f → 1 ≤ a →
        exceptIsOk ((produce_SAX_data seedFn draw sqrtQ ppf f a s).1) = true)
    ∧ (produce_SAX_data seedFn draw sqrtQ ppf 0 a s).1
        = Except.error SAXErr.zeroDivisionError
    ∧ (1 ≤ f →
        (produce_SAX_data seedFn draw sqrtQ ppf f 0 s).1
          = Except.error SAXErr.valueError)
    ∧ show_hist seedFn draw sqrtQ ppf (some 0) ea s
        = GUIOutcome.popupError "Frame size has to be an integer between 1 and n."
    ∧ show_hist seedFn draw sqrtQ ppf (some 101) ea s
        = GUIOutcome.popupError "Frame size has to be an integer between 1 and n."
    ∧ show_hist seedFn draw sqrtQ ppf (some (5 / 2)) ea s
        = GUIOutcome.popupError "Frame size has to be an integer between 1 and n."
    ∧ show_hist seedFn draw sqrtQ ppf (some 4) (some 0) s
        = GUIOutcome.popupError "Alphabet size has to be an integer between 1 and n." := by
  refine ⟨?_, ?_, produce_zeroDivision seedFn draw sqrtQ ppf a s, ?_, ?_, ?_, ?_, ?_⟩
  · by_cases hf : f = 0
    · subst hf
      rw [produce_zeroDivision]
      simp
    · by_cases ha : a = 0
      · subst ha
        rw [produce_valueError seedFn draw sqrtQ ppf f s hf]
        simp
      · rw [produce_ok seedFn draw sqrtQ ppf f a s hf ha]
        simp
  · intro hf ha
    rw [produce_ok seedFn draw sqrtQ ppf f a s (by omega) (by omega)]
    rfl
  · intro hf
    exact produce_valueError seedFn draw sqrtQ ppf f s (by omega)
  · rw [show_hist.eq_def]
    norm_num
  · rw [show_hist.eq_def]
    norm_num
  · rw [show_hist.eq_def]
    norm_num
  · rw [show_hist.eq_def]
    norm_num

/-- Witness for C1's amended statement at concrete inputs. -/
theorem c1_core_validation_witness :
    exceptIsOk ((produce_SAX_data idSeed zeroDraw zeroSqrt idPpf 4 5 0).1) = true
    ∧ (produce_SAX_data idSeed zeroDraw zeroSqrt idPpf 4 0 0).1
        = Except.error SAXErr.valueError
    ∧ show_hist idSeed zeroDraw zeroSqrt idPpf (some (5 / 2)) (some 5) 0
        = GUIOutcome.popupError "Frame size has to be an integer between 1 and n." := by
  have h := c1_core_validation_amended idSeed zeroDraw zeroSqrt idPpf 4 5 0 (some 5)
  exact ⟨h.2.1 (by norm_num) (by norm_num), h.2.2.2.1 (by norm_num),
    h.2.2.2.2.2.2.1⟩

end DS
